import Mathlib

/-!
# Verification of the Audiline admin response normalizer

Shallow embedding of the parsing / publishing logic of `src/admin.py`.
Strings are modelled as `List Char`; Python string primitives
(`strip`, `replace`, `split`) are embedded as executable list functions.
The analyze-button parsing logic (admin.py lines 116-131) becomes the pure
function `normalize`; the duration estimate (lines 166-167) becomes
`estimated_duration`; the publish-button control flow around the temporary
audio file (lines 144-191) becomes `publishStep` over an abstract local
file-system state.
-/

namespace Audiline

/-- Whitespace characters recognised by Python `str.strip()` / `str.split()`
on the ASCII range: space, tab, newline, carriage return, vertical tab,
form feed. -/
def isPySpace (c : Char) : Bool :=
  c = ' ' || c = '\t' || c = '\n' || c = '\r' || c = '\x0b' || c = '\x0c'

/-- Left part of Python `str.strip()`: drop leading whitespace. -/
def stripL (l : List Char) : List Char := l.dropWhile isPySpace

/-- Right part of Python `str.strip()`: drop trailing whitespace. -/
def stripR (l : List Char) : List Char := (l.reverse.dropWhile isPySpace).reverse

/-- Python `str.strip()` with no arguments. -/
def pyStrip (l : List Char) : List Char := stripR (stripL l)

/-- Python `str.replace("*", "")`: delete every `'*'`. -/
def removeStar (l : List Char) : List Char := l.filter (fun c => c ≠ '*')

/-- The cleanup `.replace("*", "").strip()` applied to every headline and
script candidate (admin.py lines 121-122 and 127-128). -/
def clean (l : List Char) : List Char := pyStrip (removeStar l)

/-- `s.split("|", 1)[0]`: the text before the first `'|'`. -/
def beforeBar (l : List Char) : List Char := l.takeWhile (fun c => c ≠ '|')

/-- `s.split("|", 1)[1]` when `'|' ∈ l`: the entire text after the first
`'|'` (later bars included). -/
def afterBar (l : List Char) : List Char := (l.dropWhile (fun c => c ≠ '|')).tail

/-- Python `s.split("\n")`: split at every newline, keeping empty pieces. -/
def splitLines : List Char → List (List Char)
  | [] => [[]]
  | c :: rest =>
    if c = '\n' then [] :: splitLines rest
    else
      match splitLines rest with
      | [] => [[c]]
      | h :: t => (c :: h) :: t

/-- Truthiness of `line.strip()` in the fallback filter
`[line for line in result.split("\n") if line.strip()]` (admin.py line 125):
a line survives iff it has a non-whitespace character. -/
def lineTruthy (l : List Char) : Bool := l.any (fun c => !(isPySpace c))

/-- Python `" ".join(lines)`. -/
def joinSpace (ls : List (List Char)) : List Char := List.intercalate [' '] ls

/-- Outcome of the analyze parsing logic (admin.py lines 119-131): a
headline/script pair, or a parse error carrying the text interpolated into
the `"Could not parse output. Raw: {result}"` message. -/
inductive NormResult where
  | ok (headline script : List Char)
  | parseError (raw : List Char)
deriving DecidableEq, Repr

/-- The response normalizer (admin.py lines 116-131).  The raw response is
stripped (`response.text.strip()`, line 116); if it contains `'|'` it is
split on the first occurrence (line 120); otherwise the non-blank lines are
used as a fallback (lines 125-128); with fewer than two non-blank lines the
parse fails (line 131). -/
def normalize (raw : List Char) : NormResult :=
  if '|' ∈ pyStrip raw then
    .ok (clean (beforeBar (pyStrip raw))) (clean (afterBar (pyStrip raw)))
  else
    match (splitLines (pyStrip raw)).filter lineTruthy with
    | l1 :: l2 :: rest => .ok (clean l1) (clean (joinSpace (l2 :: rest)))
    | _ => .parseError (pyStrip raw)

/-- The headline candidate before cleanup: the text before the first `'|'`
on the primary path, the first non-blank line on the fallback path. -/
def headlineCandidate (raw : List Char) : List Char :=
  if '|' ∈ pyStrip raw then beforeBar (pyStrip raw)
  else
    match (splitLines (pyStrip raw)).filter lineTruthy with
    | l1 :: _ :: _ => l1
    | _ => []

/-- The headline/script slots of `st.session_state`. -/
structure SessionState where
  headline : Option (List Char)
  script : Option (List Char)
deriving DecidableEq, Repr

/-- Effect of one analyze click on the session state: both slots are set on a
successful parse (admin.py lines 121-122, 127-128); the error branch
(line 131) writes nothing. -/
def analyzeStep (st : SessionState) (raw : List Char) : SessionState :=
  match normalize raw with
  | .ok h s => ⟨some h, some s⟩
  | .parseError _ => st

/-- Python `s.split()` with no argument: split at whitespace runs, discarding
empty pieces.  `splitOnSpace` splits at every whitespace character keeping
empty pieces; `pyWords` then drops the empty pieces. -/
def splitOnSpace : List Char → List (List Char)
  | [] => [[]]
  | c :: rest =>
    if isPySpace c then [] :: splitOnSpace rest
    else
      match splitOnSpace rest with
      | [] => [[c]]
      | h :: t => (c :: h) :: t

/-- The whitespace-separated tokens of a script. -/
def pyWords (l : List Char) : List (List Char) :=
  (splitOnSpace l).filter (fun w => w ≠ [])

/-- `word_count = len(final_script.split())` (admin.py line 166). -/
def word_count (script : List Char) : Nat := (pyWords script).length

/-- `estimated_duration = int(word_count / 2.5)` (admin.py line 167),
embedded exactly as the mathematical value `⌊word_count / 2.5⌋ = 2·wc / 5`
(the float quotient is correctly rounded, so `int()` truncation agrees with
the exact floor for every realistic word count). -/
def estimated_duration (script : List Char) : Nat := word_count script * 2 / 5

/-- Abstract local file system: the list of existing file names. -/
abbrev FS := List (List Char)

/-- Creating a file (`open(filename, "wb")` + write). -/
def fsWrite (name : List Char) (fs : FS) : FS :=
  if name ∈ fs then fs else name :: fs

/-- `os.path.exists` (admin.py line 190). -/
def fsExists (name : List Char) (fs : FS) : Bool := name ∈ fs

/-- `os.remove` (admin.py line 191). -/
def fsRemove (name : List Char) (fs : FS) : FS := fs.filter (fun n => n ≠ name)

/-- `temp_filename = f"news_{int(time.time())}.mp3"` (admin.py line 147). -/
def tempFilename (ts : Nat) : List Char :=
  "news_".toList ++ (toString ts).toList ++ ".mp3".toList

/-- Outcome of one publish click. -/
inductive PublishOutcome where
  | published (duration : Nat)
  | audioFailed
  | uploadError (msg : List Char)
deriving Repr

/-- One publish click (admin.py lines 144-191).  `audioOk` is the boolean
returned by `generate_audio_file`, which writes the temp file exactly when it
returns `True` (lines 55-59).  `uploadR` / `insertR` are the outcomes of the
storage upload and the table insert; `.error e` models a raised exception,
which jumps to the `except` handler (line 187).  The `finally` block
(lines 189-191) removes the temp file when it exists, on every exit of the
`try`. -/
def publishStep (audioOk : Bool) (uploadR : Except (List Char) Unit)
    (insertR : Except (List Char) Unit) (script : List Char) (ts : Nat)
    (fs : FS) : PublishOutcome × FS :=
  let name := tempFilename ts
  if audioOk then
    let fs1 := fsWrite name fs
    let outcome : PublishOutcome :=
      match uploadR with
      | .error e => .uploadError e
      | .ok _ =>
        match insertR with
        | .error e => .uploadError e
        | .ok _ => .published (estimated_duration script)
    let fs2 := if fsExists name fs1 then fsRemove name fs1 else fs1
    (outcome, fs2)
  else
    (.audioFailed, fs)

example : normalize "A | B | C".toList = .ok "A".toList "B | C".toList := by decide

example : normalize "Head\n\n   \nBody".toList = .ok "Head".toList "Body".toList := by decide

example : normalize "Line1\nLine2\nLine3".toList = .ok "Line1".toList "Line2 Line3".toList := by decide

example : normalize "justonelinenodelimiter".toList = .parseError "justonelinenodelimiter".toList := by decide

example : normalize "**Title** | **Body**".toList = .ok "Title".toList "Body".toList := by decide

example : normalize "Title|".toList = .ok "Title".toList [] := by decide

example : normalize "|x".toList = .ok [] "x".toList := by decide

example : word_count "a bb  ccc ".toList = 3 := by decide

example : estimated_duration "a b c d e f".toList = 2 := by decide

/-! ## Basic lemmas about the embedded string primitives -/

theorem length_dropWhile_le (p : Char → Bool) (l : List Char) :
    (List.dropWhile p l).length ≤ l.length := by
  induction l with
  | nil => simp
  | cons c t ih =>
    by_cases h : p c
    · rw [List.dropWhile_cons, if_pos h]
      exact le_trans ih (Nat.le_succ _)
    · rw [List.dropWhile_cons, if_neg h]

theorem dropWhile_idem (p : Char → Bool) (l : List Char) :
    List.dropWhile p (List.dropWhile p l) = List.dropWhile p l := by
  induction l with
  | nil => simp
  | cons c t ih =>
    by_cases h : p c
    · rw [List.dropWhile_cons, if_pos h, ih]
    · rw [List.dropWhile_cons, if_neg h, List.dropWhile_cons, if_neg h]

theorem head_not_of_dropWhile_fix {p : Char → Bool} {c : Char} {t : List Char}
    (h : List.dropWhile p (c :: t) = c :: t) : p c = false := by
  by_contra hc
  rw [Bool.not_eq_false] at hc
  rw [List.dropWhile_cons, if_pos hc] at h
  have hl := length_dropWhile_le p t
  rw [h] at hl
  simp at hl

theorem stripL_idem (l : List Char) : stripL (stripL l) = stripL l :=
  dropWhile_idem isPySpace l

theorem stripR_rev_fix {l : List Char} (h : stripR l = l) :
    List.dropWhile isPySpace l.reverse = l.reverse := by
  have h2 := congrArg List.reverse h
  rwa [stripR, List.reverse_reverse] at h2

theorem stripR_of_rev_fix {l : List Char}
    (h : List.dropWhile isPySpace l.reverse = l.reverse) : stripR l = l := by
  rw [stripR, h, List.reverse_reverse]

theorem stripR_idem (l : List Char) : stripR (stripR l) = stripR l := by
  rw [stripR, stripR, List.reverse_reverse, dropWhile_idem]

theorem stripR_decomp (l : List Char) :
    ∃ j, l = stripR l ++ j ∧ ∀ c ∈ j, isPySpace c = true := by
  refine ⟨(l.reverse.takeWhile isPySpace).reverse, ?_, ?_⟩
  · have h := List.takeWhile_append_dropWhile isPySpace l.reverse
    have h2 := congrArg List.reverse h
    rw [List.reverse_append, List.reverse_reverse] at h2
    exact h2.symm
  · intro c hc
    rw [List.mem_reverse] at hc
    exact List.mem_takeWhile_imp hc

theorem stripL_stripR_of_fix {l : List Char} (h : stripL l = l) :
    stripL (stripR l) = stripR l := by
  obtain ⟨j, hj, _⟩ := stripR_decomp l
  cases hs : stripR l with
  | nil => simp [stripL]
  | cons c t =>
    have hl : l = c :: (t ++ j) := by rw [hj, hs]; simp
    have hc : isPySpace c = false := by
      apply head_not_of_dropWhile_fix (p := isPySpace) (t := t ++ j)
      rw [← hl]
      exact h
    rw [stripL, List.dropWhile_cons, if_neg (by simp [hc])]

theorem pyStrip_idem (l : List Char) : pyStrip (pyStrip l) = pyStrip l := by
  rw [pyStrip, pyStrip, stripL_stripR_of_fix (stripL_idem l), stripR_idem]

theorem length_stripR_le (l : List Char) : (stripR l).length ≤ l.length := by
  rw [stripR, List.length_reverse]
  calc (List.dropWhile isPySpace l.reverse).length ≤ l.reverse.length :=
        length_dropWhile_le _ _
    _ = l.length := List.length_reverse l

theorem strip_parts_of_pyStrip_fix {l : List Char} (h : pyStrip l = l) :
    stripL l = l ∧ stripR l = l := by
  have hdecomp := List.takeWhile_append_dropWhile isPySpace l
  have hlen1 : (stripL l).length ≤ l.length := length_dropWhile_le _ _
  have hlen2 : (pyStrip l).length ≤ (stripL l).length := length_stripR_le _
  rw [h] at hlen2
  have hlen : (stripL l).length = l.length := le_antisymm hlen1 hlen2
  have htake : (List.takeWhile isPySpace l).length = 0 := by
    have := congrArg List.length hdecomp
    rw [List.length_append] at this
    have hL : (List.dropWhile isPySpace l).length = (stripL l).length := rfl
    omega
  have htake2 : List.takeWhile isPySpace l = [] := List.length_eq_zero.mp htake
  have hL : stripL l = l := by
    have := hdecomp
    rw [htake2, List.nil_append] at this
    exact this
  refine ⟨hL, ?_⟩
  rw [pyStrip, hL] at h
  exact h

theorem mem_of_mem_stripL {l : List Char} {c : Char} (h : c ∈ stripL l) : c ∈ l :=
  (List.dropWhile_sublist isPySpace).subset h

theorem mem_of_mem_stripR {l : List Char} {c : Char} (h : c ∈ stripR l) : c ∈ l := by
  rw [stripR, List.mem_reverse] at h
  have := (List.dropWhile_sublist (l := l.reverse) isPySpace).subset h
  rwa [List.mem_reverse] at this

theorem mem_of_mem_pyStrip {l : List Char} {c : Char} (h : c ∈ pyStrip l) : c ∈ l :=
  mem_of_mem_stripL (mem_of_mem_stripR h)

theorem mem_of_mem_clean {l : List Char} {c : Char} (h : c ∈ clean l) : c ∈ l := by
  have := mem_of_mem_pyStrip h
  exact (List.mem_filter.mp this).1

theorem star_not_mem_clean (l : List Char) : '*' ∉ clean l := by
  intro h
  have := mem_of_mem_pyStrip h
  have := (List.mem_filter.mp this).2
  simp at this

theorem pyStrip_clean (l : List Char) : pyStrip (clean l) = clean l :=
  pyStrip_idem (removeStar l)

theorem clean_of_no_star {l : List Char} (h : '*' ∉ l) : clean l = pyStrip l := by
  rw [clean, removeStar, List.filter_eq_self.mpr]
  intro a ha
  simp only [ne_eq, decide_eq_true_eq]
  intro heq
  exact h (heq ▸ ha)

theorem pyStrip_eq_nil_iff (l : List Char) :
    pyStrip l = [] ↔ ∀ c ∈ l, isPySpace c = true := by
  constructor
  · intro h c hc
    have hLnil : stripL l = [] := by
      by_contra hne
      cases hsl : stripL l with
      | nil => exact hne hsl
      | cons x t =>
        have hx : isPySpace x = false := by
          apply head_not_of_dropWhile_fix (p := isPySpace) (t := t)
          rw [← hsl]
          exact stripL_idem l
        rw [pyStrip, hsl] at h
        have hrev := congrArg List.reverse h
        rw [stripR, List.reverse_reverse] at hrev
        simp at hrev
        exact absurd (hrev x (Or.inr rfl)) (by simp [hx])
    have hdecomp := List.takeWhile_append_dropWhile isPySpace l
    rw [show List.dropWhile isPySpace l = stripL l from rfl, hLnil,
      List.append_nil] at hdecomp
    rw [← hdecomp] at hc
    exact List.mem_takeWhile_imp hc
  · intro h
    have hLnil : stripL l = [] := List.dropWhile_eq_nil_iff.mpr h
    rw [pyStrip, hLnil, stripR]
    simp

theorem clean_eq_nil_iff (l : List Char) :
    clean l = [] ↔ ∀ c ∈ l, c = '*' ∨ isPySpace c = true := by
  rw [clean, pyStrip_eq_nil_iff]
  constructor
  · intro h c hc
    by_cases hstar : c = '*'
    · exact Or.inl hstar
    · refine Or.inr (h c ?_)
      rw [removeStar, List.mem_filter]
      exact ⟨hc, by simp [hstar]⟩
  · intro h c hc
    rw [removeStar, List.mem_filter] at hc
    rcases h c hc.1 with hstar | hsp
    · exact absurd hstar (by simpa using hc.2)
    · exact hsp

/-! ## Splitting on the first bar, and the line splitter -/

theorem beforeBar_decomp {a : List Char} (b : List Char) (ha : '|' ∉ a) :
    beforeBar (a ++ '|' :: b) = a := by
  induction a with
  | nil =>
    simp [beforeBar, List.takeWhile_cons]
  | cons x t ih =>
    rw [List.mem_cons, not_or] at ha
    have hx : x ≠ '|' := fun h => ha.1 h.symm
    rw [beforeBar, List.cons_append, List.takeWhile_cons, if_pos (by simp [hx])]
    rw [beforeBar] at ih
    rw [ih ha.2]

theorem afterBar_decomp {a : List Char} (b : List Char) (ha : '|' ∉ a) :
    afterBar (a ++ '|' :: b) = b := by
  induction a with
  | nil =>
    simp [afterBar, List.dropWhile_cons]
  | cons x t ih =>
    rw [List.mem_cons, not_or] at ha
    have hx : x ≠ '|' := fun h => ha.1 h.symm
    rw [afterBar, List.cons_append, List.dropWhile_cons, if_pos (by simp [hx])]
    rw [afterBar] at ih
    rw [ih ha.2]

theorem bar_not_mem_beforeBar (l : List Char) : '|' ∉ beforeBar l := by
  intro h
  have := List.mem_takeWhile_imp h
  simp at this

theorem splitLines_ne_nil (l : List Char) : splitLines l ≠ [] := by
  cases l with
  | nil => simp [splitLines]
  | cons c t =>
    rw [splitLines]
    by_cases h : c = '\n'
    · simp [h]
    · rw [if_neg h]
      cases splitLines t <;> simp

theorem mem_of_mem_splitLines {l part : List Char} {c : Char}
    (hp : part ∈ splitLines l) (hc : c ∈ part) : c ∈ l := by
  induction l generalizing part with
  | nil =>
    rw [splitLines] at hp
    simp at hp
    rw [hp] at hc
    simp at hc
  | cons x t ih =>
    rw [splitLines] at hp
    by_cases hx : x = '\n'
    · rw [if_pos hx] at hp
      rcases List.mem_cons.mp hp with h1 | h2
      · rw [h1] at hc; simp at hc
      · exact List.mem_cons_of_mem x (ih h2 hc)
    · rw [if_neg hx] at hp
      cases hs : splitLines t with
      | nil => exact absurd hs (splitLines_ne_nil t)
      | cons h0 tl =>
        rw [hs] at hp
        rcases List.mem_cons.mp hp with h1 | h2
        · rw [h1] at hc
          rcases List.mem_cons.mp hc with h3 | h4
          · rw [h3]; exact List.mem_cons_self x t
          · refine List.mem_cons_of_mem x (ih ?_ h4)
            rw [hs]
            exact List.mem_cons_self h0 tl
        · refine List.mem_cons_of_mem x (ih ?_ hc)
          rw [hs]
          exact List.mem_cons_of_mem h0 h2

/-! ## Strip interaction with the reconstruction `headline ++ " | " ++ script` -/

theorem stripR_append_of_fix {a b : List Char} (hb : b ≠ [])
    (h : stripR b = b) : stripR (a ++ b) = a ++ b := by
  have hrev := stripR_rev_fix h
  obtain ⟨c, t, hct⟩ : ∃ c t, b.reverse = c :: t := by
    cases hbr : b.reverse with
    | nil => exact absurd (List.reverse_eq_nil_iff.mp hbr) hb
    | cons c t => exact ⟨c, t, rfl⟩
  have hc : isPySpace c = false := by
    rw [hct] at hrev
    exact head_not_of_dropWhile_fix hrev
  apply stripR_of_rev_fix
  rw [List.reverse_append, hct, List.cons_append, List.dropWhile_cons, if_neg (by simp [hc])]

theorem stripL_cons_of_not {c : Char} (t : List Char) (hc : isPySpace c = false) :
    stripL (c :: t) = c :: t := by
  rw [stripL, List.dropWhile_cons, if_neg (by simp [hc])]

theorem pyStrip_cons_space {s : List Char} (h3 : stripL s = s) (h4 : stripR s = s) :
    pyStrip (' ' :: s) = s := by
  rw [pyStrip, stripL, List.dropWhile_cons, if_pos (by simp [isPySpace])]
  rw [show List.dropWhile isPySpace s = stripL s from rfl, h3, h4]

theorem pyStrip_append_space {h : List Char} (h1 : stripL h = h) (h2 : stripR h = h) :
    pyStrip (h ++ [' ']) = h := by
  cases h with
  | nil => decide
  | cons c t =>
    have hc : isPySpace c = false := by
      apply head_not_of_dropWhile_fix (p := isPySpace) (t := t)
      rw [stripL] at h1
      exact h1
    rw [pyStrip, List.cons_append, stripL_cons_of_not _ hc]
    have hrev := stripR_rev_fix h2
    rw [stripR]
    have e1 : (c :: (t ++ [' '])).reverse = ' ' :: ((c :: t).reverse) := by simp
    rw [e1, List.dropWhile_cons, if_pos (by simp [isPySpace]), hrev, List.reverse_reverse]

theorem clean_nil : clean [] = [] := by decide

theorem clean_append_space {h : List Char} (h1 : stripL h = h) (h2 : stripR h = h)
    (h5 : '*' ∉ h) : clean (h ++ [' ']) = h := by
  rw [clean_of_no_star, pyStrip_append_space h1 h2]
  intro hmem
  rcases List.mem_append.mp hmem with hm | hm
  · exact h5 hm
  · simp at hm

theorem clean_cons_space {s : List Char} (h3 : stripL s = s) (h4 : stripR s = s)
    (h6 : '*' ∉ s) : clean (' ' :: s) = s := by
  rw [clean_of_no_star, pyStrip_cons_space h3 h4]
  intro hmem
  rcases List.mem_cons.mp hmem with hm | hm
  · simp at hm
  · exact h6 hm

/-! ## Path lemmas for the normalizer -/

theorem normalize_primary {raw : List Char} (hmem : '|' ∈ pyStrip raw) :
    normalize raw =
      .ok (clean (beforeBar (pyStrip raw))) (clean (afterBar (pyStrip raw))) := by
  rw [normalize, if_pos hmem]

theorem normalize_fallback_eq {raw l1 l2 : List Char} {rest : List (List Char)}
    (hmem : '|' ∉ pyStrip raw)
    (hf : (splitLines (pyStrip raw)).filter lineTruthy = l1 :: l2 :: rest) :
    normalize raw = .ok (clean l1) (clean (joinSpace (l2 :: rest))) := by
  rw [normalize, if_neg hmem, hf]

theorem normalize_fail_nil {raw : List Char} (hmem : '|' ∉ pyStrip raw)
    (hf : (splitLines (pyStrip raw)).filter lineTruthy = []) :
    normalize raw = .parseError (pyStrip raw) := by
  rw [normalize, if_neg hmem, hf]

theorem normalize_fail_single {raw l1 : List Char} (hmem : '|' ∉ pyStrip raw)
    (hf : (splitLines (pyStrip raw)).filter lineTruthy = [l1]) :
    normalize raw = .parseError (pyStrip raw) := by
  rw [normalize, if_neg hmem, hf]

theorem normalize_ok_shape {raw h s : List Char} (hn : normalize raw = .ok h s) :
    h = clean (headlineCandidate raw) ∧ '|' ∉ headlineCandidate raw ∧
      ∃ y, s = clean y := by
  by_cases hmem : '|' ∈ pyStrip raw
  · rw [normalize_primary hmem] at hn
    injection hn with e1 e2
    refine ⟨?_, ?_, ⟨afterBar (pyStrip raw), e2.symm⟩⟩
    · rw [headlineCandidate, if_pos hmem]
      exact e1.symm
    · rw [headlineCandidate, if_pos hmem]
      exact bar_not_mem_beforeBar _
  · cases hf : (splitLines (pyStrip raw)).filter lineTruthy with
    | nil =>
      rw [normalize_fail_nil hmem hf] at hn
      exact absurd hn (by simp)
    | cons l1 tl =>
      cases tl with
      | nil =>
        rw [normalize_fail_single hmem hf] at hn
        exact absurd hn (by simp)
      | cons l2 rest =>
        rw [normalize_fallback_eq hmem hf] at hn
        injection hn with e1 e2
        have hcand : headlineCandidate raw = l1 := by
          rw [headlineCandidate, if_neg hmem, hf]
        refine ⟨?_, ?_, ⟨joinSpace (l2 :: rest), e2.symm⟩⟩
        · rw [hcand]
          exact e1.symm
        · rw [hcand]
          intro hbar
          have hl1 : l1 ∈ splitLines (pyStrip raw) := by
            have hm : l1 ∈ (splitLines (pyStrip raw)).filter lineTruthy := by
              rw [hf]
              exact List.mem_cons_self _ _
            exact (List.mem_filter.mp hm).1
          exact hmem (mem_of_mem_splitLines hl1 hbar)

/-- Running the normalizer on the reconstruction `headline ++ " | " ++ script`
of an already-cleaned pair recovers the pair. -/
theorem normalize_reconstruct_core {h s : List Char}
    (h1 : stripL h = h) (h2 : stripR h = h) (h3 : stripL s = s) (h4 : stripR s = s)
    (h5 : '*' ∉ h) (h6 : '*' ∉ s) (h7 : '|' ∉ h) :
    normalize (h ++ ' ' :: '|' :: ' ' :: s) = .ok h s := by
  cases h with
  | nil =>
    cases s with
    | nil => decide
    | cons d u =>
      have hres : pyStrip ([] ++ ' ' :: '|' :: ' ' :: (d :: u)) =
          ['|', ' '] ++ (d :: u) := by
        rw [List.nil_append, pyStrip, stripL, List.dropWhile_cons,
          if_pos (by decide), List.dropWhile_cons, if_neg (by decide)]
        show stripR (['|', ' '] ++ (d :: u)) = ['|', ' '] ++ (d :: u)
        exact stripR_append_of_fix (by simp) h4
      have hmem : '|' ∈ pyStrip ([] ++ ' ' :: '|' :: ' ' :: (d :: u)) := by
        rw [hres]
        exact List.mem_cons_self _ _
      rw [normalize_primary hmem, hres]
      have hb : beforeBar (['|', ' '] ++ (d :: u)) = [] := by
        rw [beforeBar, List.cons_append, List.takeWhile_cons, if_neg (by decide)]
      have ha : afterBar (['|', ' '] ++ (d :: u)) = ' ' :: (d :: u) := by
        rw [afterBar, List.cons_append, List.dropWhile_cons, if_neg (by decide)]
        rfl
      rw [hb, ha, clean_nil, clean_cons_space h3 h4 h6]
  | cons c t =>
    have hc : isPySpace c = false := by
      apply head_not_of_dropWhile_fix (p := isPySpace) (t := t)
      rw [stripL] at h1
      exact h1
    cases s with
    | nil =>
      have hres : pyStrip ((c :: t) ++ ' ' :: '|' :: ' ' :: []) =
          ((c :: t) ++ [' ']) ++ '|' :: [] := by
        have e0 : (c :: t) ++ ' ' :: '|' :: ' ' :: [] =
            c :: (t ++ [' ', '|', ' ']) := by simp
        rw [e0, pyStrip, stripL_cons_of_not _ hc, stripR]
        have e1 : (c :: (t ++ [' ', '|', ' '])).reverse =
            ' ' :: '|' :: ' ' :: (c :: t).reverse := by simp
        rw [e1, List.dropWhile_cons, if_pos (by decide), List.dropWhile_cons,
          if_neg (by decide)]
        simp
      have hmem : '|' ∈ pyStrip ((c :: t) ++ ' ' :: '|' :: ' ' :: []) := by
        rw [hres]
        exact List.mem_append_right _ (List.mem_cons_self _ _)
      have hnb : '|' ∉ (c :: t) ++ [' '] := by
        intro hm
        rcases List.mem_append.mp hm with hm | hm
        · exact h7 hm
        · simp at hm
      rw [normalize_primary hmem, hres, beforeBar_decomp _ hnb, afterBar_decomp _ hnb,
        clean_nil, clean_append_space h1 h2 h5]
    | cons d u =>
      have hres : pyStrip ((c :: t) ++ ' ' :: '|' :: ' ' :: (d :: u)) =
          ((c :: t) ++ [' ']) ++ '|' :: (' ' :: (d :: u)) := by
        have e0 : (c :: t) ++ ' ' :: '|' :: ' ' :: (d :: u) =
            c :: (t ++ [' ', '|', ' '] ++ (d :: u)) := by simp
        rw [e0, pyStrip, stripL_cons_of_not _ hc]
        have e1 : c :: (t ++ [' ', '|', ' '] ++ (d :: u)) =
            ((c :: t) ++ [' ', '|', ' ']) ++ (d :: u) := by simp
        rw [e1, stripR_append_of_fix (by simp) h4]
        simp
      have hmem : '|' ∈ pyStrip ((c :: t) ++ ' ' :: '|' :: ' ' :: (d :: u)) := by
        rw [hres]
        exact List.mem_append_right _ (List.mem_cons_self _ _)
      have hnb : '|' ∉ (c :: t) ++ [' '] := by
        intro hm
        rcases List.mem_append.mp hm with hm | hm
        · exact h7 hm
        · simp at hm
      rw [normalize_primary hmem, hres, beforeBar_decomp _ hnb, afterBar_decomp _ hnb,
        clean_append_space h1 h2 h5, clean_cons_space h3 h4 h6]

/-! ## Claim theorems -/

/-- C1: for every input whose trimmed text contains the delimiter `'|'`,
`normalize` takes the primary path and splits on the first occurrence only:
the headline is the cleaned text before the first `'|'` and the script is the
cleaned entire text after it (later bars stay in the script); in particular
`normalize "A | B | C"` yields headline `"A"` and script `"B | C"`. -/
theorem normalize_first_bar_only :
    (∀ raw a b : List Char, pyStrip raw = a ++ '|' :: b → '|' ∉ a →
      normalize raw = .ok (clean a) (clean b)) ∧
    normalize "A | B | C".toList = .ok "A".toList "B | C".toList := by
  constructor
  · intro raw a b hsplit ha
    have hmem : '|' ∈ pyStrip raw := by
      rw [hsplit]
      exact List.mem_append_right _ (List.mem_cons_self _ _)
    rw [normalize_primary hmem, hsplit, beforeBar_decomp _ ha, afterBar_decomp _ ha]
  · decide

/-- C1 witness: the general part of `normalize_first_bar_only` applied to the
concrete input `"A|B|C"` with its bar decomposition. -/
theorem normalize_first_bar_only_witness :
    normalize "A|B|C".toList = .ok (clean "A".toList) (clean "B|C".toList) :=
  normalize_first_bar_only.1 "A|B|C".toList "A".toList "B|C".toList
    (by decide) (by decide)

/-- C2 counterexample: `normalize "|x"` succeeds (primary path) and its
headline is the empty string, so a successful normalization does not
guarantee a non-empty headline. -/
theorem normalize_empty_headline_cex :
    normalize "|x".toList = .ok [] "x".toList := by decide

/-- C2 (amended): on every successful path the headline may be empty; it is
empty exactly when every character of the headline candidate (the text before
the first `'|'`, or the first non-blank line on the fallback path) is the
emphasis marker `'*'` or whitespace. -/
theorem normalize_headline_empty_iff (raw h s : List Char)
    (hn : normalize raw = .ok h s) :
    h = [] ↔ (headlineCandidate raw).all (fun c => c = '*' || isPySpace c) := by
  obtain ⟨hh, _, _⟩ := normalize_ok_shape hn
  rw [hh, clean_eq_nil_iff, List.all_eq_true]
  constructor
  · intro hall c hc
    rcases hall c hc with h1 | h2
    · simp [h1]
    · simp [h2]
  · intro hall c hc
    have hb := hall c hc
    simp only [Bool.or_eq_true, decide_eq_true_eq] at hb
    exact hb

/-- C2 witness: `normalize_headline_empty_iff` applied to the concrete input
`"|x"`, whose parse succeeds with an empty headline. -/
theorem normalize_headline_empty_iff_witness :
    (([] : List Char) = [] ↔
      (headlineCandidate "|x".toList).all (fun c => c = '*' || isPySpace c)) :=
  normalize_headline_empty_iff "|x".toList [] "x".toList (by decide)

/-- C3: with no `'|'` in the trimmed input, `normalize` takes the fallback
path: the lines that are non-blank after trimming are kept, and with at least
two of them the first becomes the headline and the rest are rejoined with
single spaces as the script, both cleaned; in particular
`normalize "Head\n\n   \nBody"` yields `("Head", "Body")` and
`normalize "Line1\nLine2\nLine3"` yields `("Line1", "Line2 Line3")`. -/
theorem normalize_fallback_lines :
    (∀ (raw l1 l2 : List Char) (rest : List (List Char)), '|' ∉ pyStrip raw →
      (splitLines (pyStrip raw)).filter lineTruthy = l1 :: l2 :: rest →
      normalize raw = .ok (clean l1) (clean (joinSpace (l2 :: rest)))) ∧
    normalize "Head\n\n   \nBody".toList = .ok "Head".toList "Body".toList ∧
    normalize "Line1\nLine2\nLine3".toList =
      .ok "Line1".toList "Line2 Line3".toList := by
  refine ⟨fun raw l1 l2 rest hmem hf => normalize_fallback_eq hmem hf, by decide, by decide⟩

/-- C3 witness: the general part of `normalize_fallback_lines` applied to the
concrete two-line input `"a\nb"`. -/
theorem normalize_fallback_lines_witness :
    normalize "a\nb".toList = .ok (clean "a".toList) (clean (joinSpace ["b".toList])) :=
  normalize_fallback_lines.1 "a\nb".toList "a".toList "b".toList []
    (by decide) (by decide)

/-- C4 counterexample: on the failing input `" x "` the parse error carries the
trimmed text `"x"`, not the original raw text `" x "`. -/
theorem normalize_error_trimmed_cex :
    normalize " x ".toList = .parseError "x".toList ∧
      "x".toList ≠ " x ".toList := by decide

/-- C4 (amended): whenever `normalize` does not succeed it fails with a
`ParseError` carrying the whitespace-trimmed raw input, and no partial result
is produced: the stored headline/script session state is unchanged. -/
theorem normalize_failure_no_partial (raw : List Char) (st : SessionState)
    (hfail : ∀ h s : List Char, normalize raw ≠ .ok h s) :
    normalize raw = .parseError (pyStrip raw) ∧ analyzeStep st raw = st := by
  have hn : normalize raw = .parseError (pyStrip raw) := by
    by_cases hmem : '|' ∈ pyStrip raw
    · exact absurd (normalize_primary hmem) (hfail _ _)
    · cases hf : (splitLines (pyStrip raw)).filter lineTruthy with
      | nil => exact normalize_fail_nil hmem hf
      | cons l1 tl =>
        cases tl with
        | nil => exact normalize_fail_single hmem hf
        | cons l2 rest => exact absurd (normalize_fallback_eq hmem hf) (hfail _ _)
  refine ⟨hn, ?_⟩
  rw [analyzeStep, hn]

/-- C4 witness: `normalize_failure_no_partial` applied to the concrete failing
input `" x "` and a concrete session state. -/
theorem normalize_failure_no_partial_witness :
    normalize " x ".toList = .parseError (pyStrip " x ".toList) ∧
      analyzeStep ⟨none, none⟩ " x ".toList = ⟨none, none⟩ :=
  normalize_failure_no_partial " x ".toList ⟨none, none⟩
    (fun h s hn => by
      rw [show normalize " x ".toList = .parseError "x".toList from by decide] at hn
      exact absurd hn (by simp))

/-- C5: on every successful path both fields have every `'*'` removed and are
trimmed of surrounding whitespace; in particular
`normalize "**Title** | **Body**"` yields `("Title", "Body")`. -/
theorem normalize_cleanup_invariant :
    (∀ raw h s : List Char, normalize raw = .ok h s →
      '*' ∉ h ∧ '*' ∉ s ∧ pyStrip h = h ∧ pyStrip s = s) ∧
    normalize "**Title** | **Body**".toList = .ok "Title".toList "Body".toList := by
  constructor
  · intro raw h s hn
    obtain ⟨hh, _, y, hy⟩ := normalize_ok_shape hn
    subst hh
    subst hy
    exact ⟨star_not_mem_clean _, star_not_mem_clean _, pyStrip_clean _, pyStrip_clean _⟩
  · decide

/-- C5 witness: the general part of `normalize_cleanup_invariant` applied to
the concrete input `"**Title** | **Body**"`. -/
theorem normalize_cleanup_invariant_witness :
    '*' ∉ "Title".toList ∧ '*' ∉ "Body".toList ∧
      pyStrip "Title".toList = "Title".toList ∧
      pyStrip "Body".toList = "Body".toList :=
  normalize_cleanup_invariant.1 "**Title** | **Body**".toList
    "Title".toList "Body".toList (by decide)

/-- C6: idempotence through reconstruction: whenever `normalize` succeeds with
the pair `(headline, script)`, running it on the reconstructed string
`headline ++ " | " ++ script` succeeds with the same pair. -/
theorem normalize_reconstruct_idem (raw h s : List Char)
    (hn : normalize raw = .ok h s) :
    normalize (h ++ " | ".toList ++ s) = .ok h s := by
  obtain ⟨hh, hbar, y, hy⟩ := normalize_ok_shape hn
  have hps_h : pyStrip h = h := by rw [hh]; exact pyStrip_clean _
  have hps_s : pyStrip s = s := by rw [hy]; exact pyStrip_clean _
  obtain ⟨hL1, hR1⟩ := strip_parts_of_pyStrip_fix hps_h
  obtain ⟨hL2, hR2⟩ := strip_parts_of_pyStrip_fix hps_s
  have hstar_h : '*' ∉ h := by rw [hh]; exact star_not_mem_clean _
  have hstar_s : '*' ∉ s := by rw [hy]; exact star_not_mem_clean _
  have hbar_h : '|' ∉ h := by
    rw [hh]
    intro hm
    exact hbar (mem_of_mem_clean hm)
  have e0 : " | ".toList = [' ', '|', ' '] := rfl
  rw [e0, List.append_assoc]
  exact normalize_reconstruct_core hL1 hR1 hL2 hR2 hstar_h hstar_s hbar_h

/-- C6 witness: `normalize_reconstruct_idem` applied to the concrete input
`"T|S"`, whose parse yields `("T", "S")`. -/
theorem normalize_reconstruct_idem_witness :
    normalize ("T".toList ++ " | ".toList ++ "S".toList) =
      .ok "T".toList "S".toList :=
  normalize_reconstruct_idem "T|S".toList "T".toList "S".toList (by decide)

/-- C7: the estimated duration equals `⌊word_count / 2.5⌋` seconds, where
`word_count` counts the whitespace-separated tokens of the script, and the
estimate is monotonic in the word count: a script with twice as many words
yields an estimate that is not smaller. -/
theorem estimated_duration_floor_and_monotone :
    (∀ script : List Char,
      estimated_duration script = ⌊(word_count script : ℚ) / (2.5 : ℚ)⌋₊) ∧
    (∀ s t : List Char, word_count t = 2 * word_count s →
      estimated_duration s ≤ estimated_duration t) := by
  constructor
  · intro script
    have h25 : (2.5 : ℚ) = (5 : ℚ) / (2 : ℚ) := by norm_num
    rw [h25, div_div_eq_mul_div]
    have e : (word_count script : ℚ) * 2 = ((word_count script * 2 : ℕ) : ℚ) := by
      push_cast
      ring
    have e5 : (5 : ℚ) = ((5 : ℕ) : ℚ) := by norm_num
    rw [e, e5, Nat.floor_div_eq_div]
    rfl
  · intro s t hw
    rw [estimated_duration, estimated_duration, hw]
    exact Nat.div_le_div_right (by omega)

/-- C7 witness: the monotonicity part of
`estimated_duration_floor_and_monotone` applied to concrete scripts with two
and four words. -/
theorem estimated_duration_monotone_witness :
    estimated_duration "a b".toList ≤ estimated_duration "a b c d".toList :=
  estimated_duration_floor_and_monotone.2 "a b".toList "a b c d".toList (by decide)

/-- C8: when the temporary audio file was created before upload (the
generation step returned `True`), the publish action removes it on every exit:
for every upload outcome and every insert outcome, the file no longer exists
after the action. -/
theorem publish_temp_file_removed (uploadR insertR : Except (List Char) Unit)
    (script : List Char) (ts : Nat) (fs : FS) :
    fsExists (tempFilename ts) (publishStep true uploadR insertR script ts fs).2
      = false := by
  have hw : fsExists (tempFilename ts) (fsWrite (tempFilename ts) fs) = true := by
    rw [fsWrite]
    split
    · next hmem => simpa [fsExists] using hmem
    · simp [fsExists]
  have hrem : fsExists (tempFilename ts) (fsRemove (tempFilename ts)
      (fsWrite (tempFilename ts) fs)) = false := by
    simp [fsExists, fsRemove, List.mem_filter]
  cases uploadR with
  | error e => simp [publishStep, hw, hrem]
  | ok u =>
    cases insertR with
    | error e => simp [publishStep, hw, hrem]
    | ok v => simp [publishStep, hw, hrem]

/-- C9: normalization can succeed with an empty script: on the input
`"Title|"` the primary path succeeds with the non-empty headline `"Title"`
and the empty script. -/
theorem normalize_empty_script_ok :
    normalize "Title|".toList = .ok "Title".toList [] ∧
      "Title".toList ≠ [] := by decide

/-- C10: `normalize` is invariant under leading/trailing whitespace of its
input: normalizing the trimmed input gives the same outcome as normalizing
the input itself, because the raw text is trimmed before any parsing
decision. -/
theorem normalize_pyStrip_invariant (raw : List Char) :
    normalize (pyStrip raw) = normalize raw := by
  unfold normalize
  rw [pyStrip_idem]

end Audiline
